import Mathlib

/-!
Verification of the spectral-feature core of the GearVibrationWorkshop
notebooks: the signal synthesizer `generate_noisy_signal`, the band-energy
feature extractor `extract_features`, and the dataset builder
`generate_database`, shallowly embedded over `ℝ`/`ℂ` with the numpy random
generators modelled as explicit draw streams with a position counter.
-/

open scoped BigOperators

/-- Length of the one-sided spectrum `np.fft.rfft` of a length-`n` real
signal: `n // 2 + 1`. -/
def rfftLength (n : ℕ) : ℕ := n / 2 + 1

/-- The list `freq_per_band` of the source: `np.full(N, len(rfft)//N)` with
the first `len(rfft) % N` entries incremented by one. -/
def freq_per_band (L N : ℕ) : List ℕ :=
  (List.range N).map (fun i => L / N + if i < L % N then 1 else 0)

/-- Size of band `i`: entry `i` of `freq_per_band`. -/
def bandSize (L N i : ℕ) : ℕ := L / N + if i < L % N then 1 else 0

/-- Entry `i` of the `offsets` array of the source
(`offsets[0] = 0`, `offsets[1:] = np.cumsum(freq_per_band)`):
the sum of the first `i` band sizes. -/
def bandOffset (L N i : ℕ) : ℕ := ((freq_per_band L N).take i).sum

lemma freq_per_band_length (L N : ℕ) : (freq_per_band L N).length = N := by
  simp [freq_per_band]

lemma bandOffset_zero (L N : ℕ) : bandOffset L N 0 = 0 := rfl

lemma bandOffset_succ (L N i : ℕ) (h : i < N) :
    bandOffset L N (i + 1) = bandOffset L N i + bandSize L N i := by
  have hlen : i < (freq_per_band L N).length := by
    simpa [freq_per_band_length] using h
  rw [bandOffset, bandOffset, List.sum_take_succ _ _ hlen]
  congr 1
  simp [freq_per_band, bandSize]

lemma bandOffset_closed (L N : ℕ) : ∀ i, i ≤ N →
    bandOffset L N i = i * (L / N) + min i (L % N) := by
  intro i
  induction i with
  | zero => intro _; simp [bandOffset_zero]
  | succ i ih =>
    intro hi
    have hiN : i < N := hi
    rw [bandOffset_succ L N i hiN, ih (le_of_lt hiN), bandSize]
    by_cases hc : i < L % N
    · simp only [if_pos hc]
      have h1 : min i (L % N) = i := min_eq_left (le_of_lt hc)
      have h2 : min (i + 1) (L % N) = i + 1 := min_eq_left hc
      rw [h1, h2]; ring
    · simp only [if_neg hc]
      push_neg at hc
      have h1 : min i (L % N) = L % N := min_eq_right hc
      have h2 : min (i + 1) (L % N) = L % N :=
        min_eq_right (le_trans hc (Nat.le_succ i))
      rw [h1, h2]; ring

lemma bandOffset_top (L N : ℕ) (hN : 0 < N) : bandOffset L N N = L := by
  rw [bandOffset_closed L N N (le_refl N)]
  have hr : L % N < N := Nat.mod_lt _ hN
  rw [min_eq_right (le_of_lt hr)]
  exact Nat.div_add_mod L N

lemma bandOffset_mono (L N : ℕ) {i j : ℕ} (hij : i ≤ j) (hj : j ≤ N) :
    bandOffset L N i ≤ bandOffset L N j := by
  rw [bandOffset_closed L N i (le_trans hij hj), bandOffset_closed L N j hj]
  have h1 : i * (L / N) ≤ j * (L / N) := Nat.mul_le_mul_right _ hij
  have h2 : min i (L % N) ≤ min j (L % N) := by omega
  omega

lemma bandSize_pos (L N i : ℕ) (hN : 0 < N) (hNL : N ≤ L) :
    0 < bandSize L N i := by
  have h : 1 ≤ L / N := (Nat.one_le_div_iff hN).mpr hNL
  unfold bandSize
  omega

lemma bandOffset_le_top (L N : ℕ) {i : ℕ} (hi : i ≤ N) (hN : 0 < N) :
    bandOffset L N i ≤ L := by
  have := bandOffset_mono L N hi (le_refl N)
  rwa [bandOffset_top L N hN] at this

/-- Python slice `l[a:b]` for `0 ≤ a ≤ b` (clamped at the list's end, empty
when `b ≤ a`), as numpy uses it on one-dimensional arrays. -/
def pySlice {α : Type} (l : List α) (a b : ℕ) : List α :=
  (l.drop a).take (b - a)

lemma getD_drop (l : List ℝ) : ∀ a j : ℕ, (l.drop a).getD j 0 = l.getD (a + j) 0 := by
  induction l with
  | nil => intro a j; simp
  | cons x xs ih =>
    intro a j
    cases a with
    | zero => simp
    | succ a =>
      have : a + 1 + j = (a + j) + 1 := by omega
      rw [this]
      simp only [List.drop_succ_cons, List.getD_cons_succ]
      exact ih a j

lemma getD_map_sq (l : List ℝ) (j : ℕ) (h : j < l.length) :
    (l.map (fun x => x ^ 2)).getD j 0 = (l.getD j 0) ^ 2 := by
  rw [List.getD_eq_getElem l 0 h,
    List.getD_eq_getElem (l.map (fun x => x ^ 2)) 0 (by simpa using h)]
  simp

lemma sum_take_getD (l : List ℝ) : ∀ k : ℕ, k ≤ l.length →
    (l.take k).sum = ∑ j ∈ Finset.range k, l.getD j 0 := by
  intro k
  induction k with
  | zero => intro _; simp
  | succ n ih =>
    intro h
    have hn : n < l.length := h
    rw [List.sum_take_succ _ _ hn, ih (le_of_lt hn), Finset.sum_range_succ]
    congr 1
    rw [List.getD_eq_getElem l 0 hn]

lemma pySlice_sq_sum (m : List ℝ) (a b : ℕ) (hab : a ≤ b) (hb : b ≤ m.length) :
    ((pySlice m a b).map (fun x => x ^ 2)).sum =
      ∑ j ∈ Finset.Ico a b, (m.getD j 0) ^ 2 := by
  rw [pySlice, List.map_take, List.map_drop]
  have hlen : b - a ≤ ((m.map (fun x => x ^ 2)).drop a).length := by
    simp
    omega
  rw [sum_take_getD _ _ hlen, Finset.sum_Ico_eq_sum_range]
  refine Finset.sum_congr rfl (fun j hj => ?_)
  rw [Finset.mem_range] at hj
  rw [getD_drop, getD_map_sq]
  omega

lemma getD_map_range (f : ℕ → ℝ) (N i : ℕ) (h : i < N) :
    ((List.range N).map f).getD i 0 = f i := by
  rw [List.getD_eq_getElem _ 0 (by simpa using h)]
  simp

/-- Entry `k` of `np.fft.rfft(signal)` for a real signal of length `n`:
the discrete Fourier sum `∑_j signal[j] · exp(-2πi · j · k / n)`. -/
noncomputable def rfftEntry (signal : List ℝ) (k : ℕ) : ℂ :=
  ∑ j ∈ Finset.range signal.length,
    ((signal.getD j 0 : ℝ) : ℂ) *
      Complex.exp (-(2 * (Real.pi : ℂ) * Complex.I * (j : ℂ) * (k : ℂ)) / (signal.length : ℂ))

/-- `np.fft.rfft(signal)`: the one-sided spectrum, one complex entry per
non-negative frequency bin, `len(signal) // 2 + 1` entries in all. -/
noncomputable def rfft (signal : List ℝ) : List ℂ :=
  (List.range (rfftLength signal.length)).map (rfftEntry signal)

lemma rfft_length (signal : List ℝ) :
    (rfft signal).length = rfftLength signal.length := by
  simp [rfft]

/-- The scaled magnitude spectrum `mag = 1/len(signal) * np.abs(rfft)`. -/
noncomputable def mag (signal : List ℝ) : List ℝ :=
  (rfft signal).map (fun z => 1 / (signal.length : ℝ) * Complex.abs z)

lemma mag_length (signal : List ℝ) :
    (mag signal).length = rfftLength signal.length := by
  simp [mag, rfft]

lemma mag_getD (signal : List ℝ) (j : ℕ) (h : j < rfftLength signal.length) :
    (mag signal).getD j 0 =
      1 / (signal.length : ℝ) * Complex.abs (rfftEntry signal j) := by
  rw [List.getD_eq_getElem _ 0 (by rw [mag_length]; exact h)]
  simp [mag, rfft, h]

/-- The feature extractor of the source: compute `rfft`, split the
`len(rfft)` bins into `N` bands (`len(rfft)//N` bins each, the first
`len(rfft) % N` bands one bin larger), and return per band
`sqrt(1/(offsets[i+1]-offsets[i]) * sum(mag[offsets[i]:offsets[i+1]]**2))`. -/
noncomputable def extract_features (signal : List ℝ) (N : ℕ) : List ℝ :=
  (List.range N).map (fun i =>
    Real.sqrt (1 / ((bandOffset (rfft signal).length N (i + 1) : ℝ) -
        (bandOffset (rfft signal).length N i : ℝ)) *
      ((pySlice (mag signal) (bandOffset (rfft signal).length N i)
          (bandOffset (rfft signal).length N (i + 1))).map (fun x => x ^ 2)).sum))

/-- `np.linspace(0, T, N, endpoint=False)`: the `N` grid points `j·(T/N)`. -/
noncomputable def npLinspace (T : ℝ) (N : ℕ) : List ℝ :=
  (List.range N).map (fun (j : ℕ) => (j : ℝ) * (T / N))

/-- The signal synthesizer of the source.  The global numpy random
generator consumed by `np.random.randn` is modelled as a stream
`g : ℕ → ℝ` of independent standard normal draws together with the
current position `s`; `randn(N)` yields `g s, …, g (s+N-1)` and leaves the
generator at position `s + N`.  The two `assert` statements are modelled
by returning `none` (no signal) when the three coefficient arrays do not
have equal lengths; on success the result is
`(time grid, signal, new generator position)`. -/
noncomputable def generate_noisy_signal (sample_frequency : ℕ)
    (amplitudes frequencies phases : List ℝ) (noise : ℝ) (T : ℝ)
    (g : ℕ → ℝ) (s : ℕ) : Option (List ℝ × List ℝ × ℕ) :=
  if frequencies.length = phases.length ∧ amplitudes.length = phases.length then
    some (npLinspace T ⌊T * (sample_frequency : ℝ)⌋₊,
      (List.range ⌊T * (sample_frequency : ℝ)⌋₊).map (fun j =>
        noise * g (s + j) +
          ((amplitudes.zip (frequencies.zip phases)).map (fun afp =>
            afp.1 * Real.cos (2 * Real.pi * afp.2.1 *
              ((j : ℝ) * (T / (⌊T * (sample_frequency : ℝ)⌋₊ : ℝ))) + afp.2.2))).sum),
      s + ⌊T * (sample_frequency : ℝ)⌋₊)
  else
    none

/-- Modelled: one `RandomState.uniform(a, b)` variate, driven by a unit
uniform draw `x` of the generator stream. -/
noncomputable def rsUniform (a b x : ℝ) : ℝ := a + (b - a) * x

/-- Modelled: one `RandomState.random_integers(0, 1)` variate (uniform on
`{0, 1}`), driven by a unit uniform draw `x` of the generator stream. -/
noncomputable def rsRandInt01 (x : ℝ) : ℕ := if x < 1 / 2 then 0 else 1

/-- `A = rs.uniform(-4, 4, size=n)`: draw `i` of the seeded generator run,
`r` being the generator position when `generate_database` is entered. -/
noncomputable def dbAmplitude (u : ℕ → ℝ) (r _n i : ℕ) : ℝ :=
  rsUniform (-4) 4 (u (r + i))

/-- `phase = np.pi * rs.random(n)`: draw `n + i` of the generator run. -/
noncomputable def dbPhase (u : ℕ → ℝ) (r n i : ℕ) : ℝ :=
  Real.pi * u (r + n + i)

/-- `noise = rs.uniform(-2, 2, size=n) * rs.random_integers(0, 1, size=n)`:
draws `2n + i` and `3n + i` of the generator run. -/
noncomputable def dbNoise (u : ℕ → ℝ) (r n i : ℕ) : ℝ :=
  rsUniform (-2) 2 (u (r + 2 * n + i)) * (rsRandInt01 (u (r + 3 * n + i)) : ℝ)

/-- `frequencies = rs.uniform(0, 20000, size=n)`: draw `4n + i`. -/
noncomputable def dbFrequency (u : ℕ → ℝ) (r n i : ℕ) : ℝ :=
  rsUniform 0 20000 (u (r + 4 * n + i))

/-- `labels[i] = 1 + np.int32(frequencies[i] > 8e3)`. -/
noncomputable def dbLabel (f : ℝ) : ℕ := 1 + if f > 8000 then 1 else 0

/-- `target_map = {1: "low", 2: "high"}` of the KNN notebook. -/
def target_map : ℕ → Option String := fun k =>
  if k = 1 then some "low" else if k = 2 then some "high" else none

/-- `target_map = {0: "low", 1: "high"}` of the ANN notebook variant,
which pairs it with the same `1 + (f > 8e3)` labels. -/
def target_map_v3 : ℕ → Option String := fun k =>
  if k = 0 then some "low" else if k = 1 then some "high" else none

/-- The dataset builder of the source.  The seeded `RandomState` `rs` is
modelled as a stream `u : ℕ → ℝ` of unit uniform draws at position `r`
("seeding identically" = giving two runs the same `u` and `r`); the global
numpy generator consumed inside `generate_noisy_signal` is the separate
stream `g` at position `s`.  Each loop iteration synthesizes a single-tone
signal (`⌊T·fs⌋` noise draws) and extracts `num_windows` features; labels
come from the drawn frequency against the 8000 Hz threshold.  Returns
`(feature matrix, label vector, target map)`. -/
noncomputable def generate_database (fs n : ℕ) (T : ℝ) (num_windows : ℕ)
    (u : ℕ → ℝ) (r : ℕ) (g : ℕ → ℝ) (s : ℕ) :
    List (List ℝ) × List ℕ × (ℕ → Option String) :=
  ((List.range n).map (fun i =>
      extract_features
        (((generate_noisy_signal fs [dbAmplitude u r n i] [dbFrequency u r n i]
            [dbPhase u r n i] (dbNoise u r n i) T g
            (s + i * ⌊T * (fs : ℝ)⌋₊)).map (fun x => x.2.1)).getD [])
        num_windows),
    (List.range n).map (fun i => dbLabel (dbFrequency u r n i)),
    target_map)

lemma band_biUnion (L N : ℕ) : ∀ k, k ≤ N →
    (Finset.range k).biUnion (fun i =>
      Finset.Ico (bandOffset L N i) (bandOffset L N (i + 1))) =
    Finset.range (bandOffset L N k) := by
  intro k
  induction k with
  | zero => intro _; simp [bandOffset_zero]
  | succ k ih =>
    intro hk
    have hkN : k ≤ N := le_of_lt hk
    rw [Finset.range_succ, Finset.biUnion_insert, ih hkN,
      Finset.range_eq_Ico, Finset.union_comm]
    exact Finset.Ico_union_Ico_eq_Ico (Nat.zero_le _)
      (bandOffset_mono L N (Nat.le_succ k) hk)

/-- C2: for every band count `N` and spectrum length `L` with `1 ≤ N ≤ L`,
the band partition computed by `extract_features` consists of `N`
contiguous, ordered, non-empty index ranges that cover `[0, L)` exactly
once, where band `i` has size `L/N + 1` if `i < L % N` and size `L/N`
otherwise; exactly `L % N` bands have the larger size and the remaining
`N - L % N` the smaller. -/
theorem band_partition_spec (L N : ℕ) (hN : 1 ≤ N) (hNL : N ≤ L) :
    bandOffset L N 0 = 0 ∧
    bandOffset L N N = L ∧
    (∀ i, i < N → bandOffset L N (i + 1) = bandOffset L N i + bandSize L N i) ∧
    (∀ i, i < N → bandOffset L N i < bandOffset L N (i + 1)) ∧
    (∀ i, i < N → bandOffset L N (i + 1) - bandOffset L N i =
      L / N + if i < L % N then 1 else 0) ∧
    ((Finset.range N).biUnion (fun i =>
      Finset.Ico (bandOffset L N i) (bandOffset L N (i + 1))) = Finset.range L) ∧
    (∀ i j, i < N → j < N → i ≠ j →
      Disjoint (Finset.Ico (bandOffset L N i) (bandOffset L N (i + 1)))
        (Finset.Ico (bandOffset L N j) (bandOffset L N (j + 1)))) ∧
    ((Finset.range N).filter
      (fun i => bandOffset L N (i + 1) - bandOffset L N i = L / N + 1)).card = L % N ∧
    ((Finset.range N).filter
      (fun i => bandOffset L N (i + 1) - bandOffset L N i = L / N)).card = N - L % N := by
  have hN0 : 0 < N := hN
  have hdiff : ∀ i, i < N →
      bandOffset L N (i + 1) - bandOffset L N i = bandSize L N i := by
    intro i hi
    rw [bandOffset_succ L N i hi]
    omega
  have hr : L % N < N := Nat.mod_lt _ hN0
  refine ⟨bandOffset_zero L N, bandOffset_top L N hN0, fun i hi => bandOffset_succ L N i hi,
    ?_, ?_, ?_, ?_, ?_, ?_⟩
  · intro i hi
    have := bandSize_pos L N i hN0 hNL
    rw [bandOffset_succ L N i hi]
    omega
  · intro i hi
    rw [hdiff i hi, bandSize]
  · rw [band_biUnion L N N (le_refl N), bandOffset_top L N hN0]
  · intro i j hi hj hij
    rcases Nat.lt_or_ge i j with hlt | hge
    · have hle : bandOffset L N (i + 1) ≤ bandOffset L N j :=
        bandOffset_mono L N hlt (le_of_lt hj)
      rw [Finset.disjoint_left]
      intro a ha hb
      rw [Finset.mem_Ico] at ha hb
      omega
    · have hlt : j < i := by omega
      have hle : bandOffset L N (j + 1) ≤ bandOffset L N i :=
        bandOffset_mono L N hlt (le_of_lt hi)
      rw [Finset.disjoint_left]
      intro a ha hb
      rw [Finset.mem_Ico] at ha hb
      omega
  · have hset : (Finset.range N).filter
        (fun i => bandOffset L N (i + 1) - bandOffset L N i = L / N + 1) =
        Finset.range (L % N) := by
      ext x
      simp only [Finset.mem_filter, Finset.mem_range]
      constructor
      · rintro ⟨hx, hxd⟩
        rw [hdiff x hx, bandSize] at hxd
        by_cases hc : x < L % N
        · exact hc
        · rw [if_neg hc] at hxd; omega
      · intro hx
        refine ⟨lt_trans hx hr, ?_⟩
        rw [hdiff x (lt_trans hx hr), bandSize, if_pos hx]
    rw [hset, Finset.card_range]
  · have hset : (Finset.range N).filter
        (fun i => bandOffset L N (i + 1) - bandOffset L N i = L / N) =
        Finset.Ico (L % N) N := by
      ext x
      simp only [Finset.mem_filter, Finset.mem_range, Finset.mem_Ico]
      constructor
      · rintro ⟨hx, hxd⟩
        rw [hdiff x hx, bandSize] at hxd
        by_cases hc : x < L % N
        · rw [if_pos hc] at hxd; omega
        · omega
      · rintro ⟨hx1, hx2⟩
        refine ⟨hx2, ?_⟩
        rw [hdiff x hx2, bandSize, if_neg (by omega : ¬ x < L % N)]
        omega
    rw [hset, Nat.card_Ico]

theorem band_partition_spec_witness :
    (1 ≤ 3 ∧ 3 ≤ 5) ∧ bandOffset 5 3 3 = 5 :=
  ⟨by norm_num, (band_partition_spec 5 3 (by norm_num) (by norm_num)).2.1⟩

/-- C10: for every band count `N ≥ 1` and every non-empty signal,
`extract_features` returns a vector of length exactly `N`, including when
`N` exceeds the spectrum length. -/
theorem extract_features_length_eq_bands (signal : List ℝ) (N : ℕ)
    (_h1 : 1 ≤ N) (_h2 : signal ≠ []) :
    (extract_features signal N).length = N := by
  simp [extract_features]

theorem extract_features_length_eq_bands_witness :
    (1 ≤ 5 ∧ ([1] : List ℝ) ≠ []) ∧ (extract_features [1] 5).length = 5 :=
  ⟨⟨by norm_num, by simp⟩,
    extract_features_length_eq_bands [1] 5 (by norm_num) (by simp)⟩

/-- C6: for every band count `N` strictly greater than the spectrum
length, `extract_features` produces some empty bands, and for every empty
band the returned value is `sqrt(1/0 * 0)` — the slice of magnitudes is
empty (sum `0`) and the band width, the divisor, is `0`.  (In numpy this
is the NaN `sqrt(0/0)`; over `ℝ`, where division is total, the theorem
records the `0/0` structure of the expression itself.) -/
theorem extract_features_empty_band_nan (signal : List ℝ) (N : ℕ)
    (h : rfftLength signal.length < N) :
    (∃ i, i < N ∧ bandSize (rfftLength signal.length) N i = 0) ∧
    (∀ i, i < N → bandSize (rfftLength signal.length) N i = 0 →
      pySlice (mag signal) (bandOffset (rfftLength signal.length) N i)
        (bandOffset (rfftLength signal.length) N (i + 1)) = [] ∧
      (extract_features signal N).getD i 0 = Real.sqrt (1 / (0 : ℝ) * 0)) := by
  constructor
  · refine ⟨rfftLength signal.length, h, ?_⟩
    rw [bandSize, Nat.div_eq_of_lt h, Nat.mod_eq_of_lt h]
    simp
  · intro i hi hsz
    have hoff : bandOffset (rfftLength signal.length) N (i + 1) =
        bandOffset (rfftLength signal.length) N i := by
      rw [bandOffset_succ _ _ i hi, hsz]
      omega
    have hslice : pySlice (mag signal)
        (bandOffset (rfftLength signal.length) N i)
        (bandOffset (rfftLength signal.length) N (i + 1)) = [] := by
      rw [hoff, pySlice, Nat.sub_self]
      simp
    refine ⟨hslice, ?_⟩
    rw [extract_features, getD_map_range _ _ _ hi, rfft_length, hslice, hoff]
    simp

theorem extract_features_empty_band_nan_witness :
    rfftLength ([1, 0] : List ℝ).length < 3 ∧
    (∃ i, i < 3 ∧ bandSize (rfftLength ([1, 0] : List ℝ).length) 3 i = 0) :=
  ⟨by norm_num [rfftLength],
    (extract_features_empty_band_nan [1, 0] 3 (by norm_num [rfftLength])).1⟩

/-- C1: for every real signal and band count `N` with `1 ≤ N ≤` spectrum
length, `extract_features` returns exactly `N` values, the `i`-th being
the square root of the mean of the squared magnitudes over band `i`, the
magnitudes being the one-sided FFT magnitudes scaled by `1/len(signal)`. -/
theorem extract_features_band_rms (signal : List ℝ) (N : ℕ)
    (h1 : 1 ≤ N) (_h2 : N ≤ rfftLength signal.length) :
    (extract_features signal N).length = N ∧
    ∀ i, i < N →
      (extract_features signal N).getD i 0 =
        Real.sqrt ((∑ j ∈ Finset.Ico (bandOffset (rfftLength signal.length) N i)
            (bandOffset (rfftLength signal.length) N (i + 1)),
            (1 / (signal.length : ℝ) * Complex.abs (rfftEntry signal j)) ^ 2) /
          (bandSize (rfftLength signal.length) N i : ℝ)) := by
  have hN0 : 0 < N := h1
  constructor
  · simp [extract_features]
  · intro i hi
    have hba := bandOffset_succ (rfftLength signal.length) N i hi
    have hab : bandOffset (rfftLength signal.length) N i ≤
        bandOffset (rfftLength signal.length) N (i + 1) := by omega
    have hb_le : bandOffset (rfftLength signal.length) N (i + 1) ≤
        rfftLength signal.length :=
      bandOffset_le_top _ _ (Nat.succ_le_of_lt hi) hN0
    rw [extract_features, getD_map_range _ _ _ hi, rfft_length,
      pySlice_sq_sum (mag signal) _ _ hab (by rw [mag_length]; exact hb_le)]
    have hsum : ∑ j ∈ Finset.Ico (bandOffset (rfftLength signal.length) N i)
          (bandOffset (rfftLength signal.length) N (i + 1)),
          ((mag signal).getD j 0) ^ 2 =
        ∑ j ∈ Finset.Ico (bandOffset (rfftLength signal.length) N i)
          (bandOffset (rfftLength signal.length) N (i + 1)),
          (1 / (signal.length : ℝ) * Complex.abs (rfftEntry signal j)) ^ 2 := by
      refine Finset.sum_congr rfl (fun j hj => ?_)
      rw [Finset.mem_Ico] at hj
      rw [mag_getD signal j (lt_of_lt_of_le hj.2 hb_le)]
    have hcast : (bandOffset (rfftLength signal.length) N (i + 1) : ℝ) -
        (bandOffset (rfftLength signal.length) N i : ℝ) =
        (bandSize (rfftLength signal.length) N i : ℝ) := by
      rw [hba]
      push_cast
      ring
    rw [hsum, hcast, one_div_mul_eq_div]

theorem extract_features_band_rms_witness :
    (1 ≤ 2 ∧ 2 ≤ rfftLength ([1, 0, 0, 0] : List ℝ).length) ∧
    (extract_features [1, 0, 0, 0] 2).length = 2 :=
  ⟨by norm_num [rfftLength],
    (extract_features_band_rms [1, 0, 0, 0] 2 (by norm_num)
      (by norm_num [rfftLength])).1⟩

/-- The constant-zero draw stream. -/
noncomputable def gZero : ℕ → ℝ := fun _ => 0

/-- The constant-one draw stream. -/
noncomputable def gOne : ℕ → ℝ := fun _ => 1

/-- C3: for every sample rate, duration `T ≥ 0`, equal-length coefficient
arrays and noise stream, `generate_noisy_signal` succeeds and returns a
time grid of length `int(T*fs)` that is uniform over `[0, T)` (start
inclusive, end exclusive, constant step `T/N`), and a signal whose value
at step `j` is the sum over all `(A, f, p)` triples of
`A·cos(2π·f·t_j + p)` plus `noise` times the `j`-th standard normal
draw. -/
theorem generate_noisy_signal_spec (fs : ℕ) (amplitudes frequencies phases : List ℝ)
    (noise T : ℝ) (g : ℕ → ℝ) (s : ℕ)
    (hf : frequencies.length = phases.length)
    (ha : amplitudes.length = phases.length) (_hT : 0 ≤ T) :
    ∃ t sig,
      generate_noisy_signal fs amplitudes frequencies phases noise T g s =
        some (t, sig, s + ⌊T * (fs : ℝ)⌋₊) ∧
      t.length = ⌊T * (fs : ℝ)⌋₊ ∧
      sig.length = ⌊T * (fs : ℝ)⌋₊ ∧
      (∀ j, j < ⌊T * (fs : ℝ)⌋₊ →
        t.getD j 0 = (j : ℝ) * (T / (⌊T * (fs : ℝ)⌋₊ : ℝ))) ∧
      (0 < ⌊T * (fs : ℝ)⌋₊ → t.getD 0 0 = 0) ∧
      (∀ j, j < ⌊T * (fs : ℝ)⌋₊ → 0 ≤ t.getD j 0 ∧ t.getD j 0 < T) ∧
      (∀ j, j + 1 < ⌊T * (fs : ℝ)⌋₊ →
        t.getD (j + 1) 0 - t.getD j 0 = T / (⌊T * (fs : ℝ)⌋₊ : ℝ)) ∧
      (∀ j, j < ⌊T * (fs : ℝ)⌋₊ →
        sig.getD j 0 =
          ((amplitudes.zip (frequencies.zip phases)).map (fun afp =>
            afp.1 * Real.cos (2 * Real.pi * afp.2.1 * t.getD j 0 + afp.2.2))).sum +
          noise * g (s + j)) := by
  rw [generate_noisy_signal, if_pos ⟨hf, ha⟩]
  refine ⟨npLinspace T ⌊T * (fs : ℝ)⌋₊, _, rfl, by simp [npLinspace], by simp, ?_, ?_, ?_, ?_, ?_⟩
  · intro j hj
    rw [npLinspace, getD_map_range _ _ _ hj]
  · intro h0
    rw [npLinspace, getD_map_range _ _ _ h0]
    simp
  · intro j hj
    rw [npLinspace, getD_map_range _ _ _ hj]
    have hfl : 0 < ⌊T * (fs : ℝ)⌋₊ := by omega
    have hN1 : 1 ≤ T * (fs : ℝ) := by exact Nat.floor_pos.mp hfl
    have hT0 : 0 < T := by
      nlinarith [hN1, (Nat.cast_nonneg fs : (0 : ℝ) ≤ (fs : ℝ))]
    have hNpos : (0 : ℝ) < (⌊T * (fs : ℝ)⌋₊ : ℝ) := by
      have : 0 < ⌊T * (fs : ℝ)⌋₊ := by omega
      exact_mod_cast this
    constructor
    · exact mul_nonneg (Nat.cast_nonneg j) (le_of_lt (div_pos hT0 hNpos))
    · have hjN : (j : ℝ) < (⌊T * (fs : ℝ)⌋₊ : ℝ) := by exact_mod_cast hj
      have := mul_lt_mul_of_pos_right hjN (div_pos hT0 hNpos)
      have hcancel : (⌊T * (fs : ℝ)⌋₊ : ℝ) * (T / (⌊T * (fs : ℝ)⌋₊ : ℝ)) = T := by
        field_simp
      rwa [hcancel] at this
  · intro j hj
    have hj1 : j + 1 < ⌊T * (fs : ℝ)⌋₊ := hj
    have hj0 : j < ⌊T * (fs : ℝ)⌋₊ := by omega
    rw [npLinspace, getD_map_range _ _ _ hj1, getD_map_range _ _ _ hj0]
    push_cast
    ring
  · intro j hj
    rw [npLinspace, getD_map_range _ _ _ hj, getD_map_range _ _ _ hj]
    rw [add_comm]

theorem generate_noisy_signal_spec_witness :
    (([0.5] : List ℝ).length = ([0.25] : List ℝ).length ∧
      ([2] : List ℝ).length = ([0.25] : List ℝ).length ∧ (0 : ℝ) ≤ 1) ∧
    ∃ t sig pos,
      generate_noisy_signal 4 [2] [0.5] [0.25] 3 1 gZero 0 = some (t, sig, pos) ∧
      t.length = ⌊(1 : ℝ) * ((4 : ℕ) : ℝ)⌋₊ := by
  refine ⟨⟨rfl, rfl, by norm_num⟩, ?_⟩
  obtain ⟨t, sig, heq, hlen, _⟩ :=
    generate_noisy_signal_spec 4 [2] [0.5] [0.25] 3 1 gZero 0 rfl rfl (by norm_num)
  exact ⟨t, sig, _, heq, hlen⟩

/-- C5: if the amplitude, frequency and phase arrays do not all have the
same length, `generate_noisy_signal` fails immediately on its `assert`
statements — modelled as `none` — and no signal is returned. -/
theorem generate_noisy_signal_assert_mismatch (fs : ℕ)
    (amplitudes frequencies phases : List ℝ) (noise T : ℝ) (g : ℕ → ℝ) (s : ℕ)
    (h : ¬ (frequencies.length = phases.length ∧
      amplitudes.length = phases.length)) :
    generate_noisy_signal fs amplitudes frequencies phases noise T g s = none := by
  rw [generate_noisy_signal, if_neg h]

theorem generate_noisy_signal_assert_mismatch_witness :
    ¬ (([] : List ℝ).length = ([] : List ℝ).length ∧
      ([1] : List ℝ).length = ([] : List ℝ).length) ∧
    generate_noisy_signal 1 [1] [] [] 0 1 gZero 0 = none :=
  ⟨by simp, generate_noisy_signal_assert_mismatch 1 [1] [] [] 0 1 gZero 0 (by simp)⟩

/-- C8: with noise scale `0`, the time grid and signal returned by
`generate_noisy_signal` do not depend on the normal draws at all: any two
invocations with identical amplitude/frequency/phase/duration/sample-rate
inputs produce identical signals, whatever the state and content of the
random stream. -/
theorem generate_noisy_signal_zero_noise_deterministic (fs : ℕ)
    (amplitudes frequencies phases : List ℝ) (T : ℝ)
    (g1 g2 : ℕ → ℝ) (s1 s2 : ℕ) :
    Option.map (fun x => (x.1, x.2.1))
        (generate_noisy_signal fs amplitudes frequencies phases 0 T g1 s1) =
      Option.map (fun x => (x.1, x.2.1))
        (generate_noisy_signal fs amplitudes frequencies phases 0 T g2 s2) := by
  rw [generate_noisy_signal, generate_noisy_signal]
  by_cases h : frequencies.length = phases.length ∧
      amplitudes.length = phases.length
  · rw [if_pos h, if_pos h]
    simp
  · rw [if_neg h, if_neg h]

/-- C9 (counterexample): `generate_noisy_signal` is not free of external
side effects: calling it at sample rate 1, duration 1, empty coefficient
arrays and noise scale 0, with the global generator at position 0, leaves
the generator at position 1, not 0 — `np.random.randn(len(t))` consumes
one draw per sample even when the noise scale is zero. -/
theorem generate_noisy_signal_consumes_rng :
    Option.map (fun x => x.2.2) (generate_noisy_signal 1 [] [] [] 0 1 gZero 0) ≠
      some 0 := by
  rw [generate_noisy_signal, if_pos (by simp)]
  simp

/-- C9 (amended): a successful call of `generate_noisy_signal` modifies no
external state other than the global numpy generator, which it advances by
exactly `int(T*fs)` positions — one standard normal draw per sample,
regardless of the noise scale. -/
theorem generate_noisy_signal_rng_advance (fs : ℕ)
    (amplitudes frequencies phases : List ℝ) (noise T : ℝ) (g : ℕ → ℝ) (s : ℕ)
    (hf : frequencies.length = phases.length)
    (ha : amplitudes.length = phases.length) :
    Option.map (fun x => x.2.2)
        (generate_noisy_signal fs amplitudes frequencies phases noise T g s) =
      some (s + ⌊T * (fs : ℝ)⌋₊) := by
  rw [generate_noisy_signal, if_pos ⟨hf, ha⟩]
  rfl

theorem generate_noisy_signal_rng_advance_witness :
    (([] : List ℝ).length = ([] : List ℝ).length ∧
      ([] : List ℝ).length = ([] : List ℝ).length) ∧
    Option.map (fun x => x.2.2) (generate_noisy_signal 1 [] [] [] 0 1 gZero 0) =
      some (0 + ⌊(1 : ℝ) * ((1 : ℕ) : ℝ)⌋₊) :=
  ⟨⟨rfl, rfl⟩, generate_noisy_signal_rng_advance 1 [] [] [] 0 1 gZero 0 rfl rfl⟩

/-- C7 (documenting the divergence): in the KNN notebook's target map
`{1: "low", 2: "high"}` the labels `1 + (f > 8000)` are named as the claim
says: a drawn frequency of 9000 gets the label named "high" and one of 500
the label named "low".  The ANN notebook variant reuses exactly the same
labels `1 + (f > 8000)` but returns the target map `{0: "low", 1: "high"}`:
there a drawn frequency of 500 is assigned label 1, which that map names
"high", and a drawn frequency of 9000 is assigned label 2, which that map
does not name at all. -/
theorem dbLabel_target_map_mismatch :
    dbLabel 9000 = 2 ∧ dbLabel 500 = 1 ∧
    target_map (dbLabel 9000) = some "high" ∧
    target_map (dbLabel 500) = some "low" ∧
    target_map_v3 (dbLabel 500) = some "high" ∧
    target_map_v3 (dbLabel 9000) = none := by
  have h1 : dbLabel 9000 = 2 := by
    rw [dbLabel, if_pos (by norm_num : (9000 : ℝ) > 8000)]
  have h2 : dbLabel 500 = 1 := by
    rw [dbLabel, if_neg (by norm_num : ¬ (500 : ℝ) > 8000)]
  refine ⟨h1, h2, ?_, ?_, ?_, ?_⟩
  · rw [h1]; rfl
  · rw [h2]; rfl
  · rw [h2]; rfl
  · rw [h1]; rfl

lemma list_range_one : List.range 1 = [0] := rfl

lemma rfftEntry_single (v : ℝ) : rfftEntry [v] 0 = (v : ℂ) := by
  rw [rfftEntry]
  simp

lemma mag_single (v : ℝ) : mag [v] = [Complex.abs ((v : ℝ) : ℂ)] := by
  rw [mag, rfft]
  simp only [rfftLength, List.length_cons, List.length_nil]
  rw [list_range_one]
  simp [rfftEntry_single]

lemma extract_features_single (v : ℝ) :
    extract_features [v] 1 = [Real.sqrt (v ^ 2)] := by
  have hL : rfftLength ([v] : List ℝ).length = 1 := by simp [rfftLength]
  rw [extract_features, rfft_length, hL, list_range_one]
  simp only [List.map_cons, List.map_nil]
  have ho1 : bandOffset 1 1 (0 + 1) = 1 := by decide
  have ho0 : bandOffset 1 1 0 = 0 := rfl
  rw [ho1, ho0, mag_single]
  simp [pySlice, Complex.abs_ofReal, sq_abs]

/-- The seeded-generator stream of the reproducibility experiment: draw 0
(the amplitude draw, yielding amplitude 2) and draw 3 (the noise on/off
flag, yielding flag 1) are 3/4, every other draw is 0 (giving phase 0,
noise scale -2, carrier frequency 0). -/
noncomputable def uC4 : ℕ → ℝ := fun k => if k = 0 ∨ k = 3 then 3 / 4 else 0

lemma db_run_features (g : ℕ → ℝ) :
    (generate_database 1 1 1 1 uC4 0 g 0).1 =
      [[Real.sqrt ((-2 * g 0 + 2) ^ 2)]] := by
  have hA : dbAmplitude uC4 0 1 0 = 2 := by
    rw [dbAmplitude, rsUniform]; norm_num [uC4]
  have hF : dbFrequency uC4 0 1 0 = 0 := by
    rw [dbFrequency, rsUniform]; norm_num [uC4]
  have hP : dbPhase uC4 0 1 0 = 0 := by
    rw [dbPhase]; norm_num [uC4]
  have hN : dbNoise uC4 0 1 0 = -2 := by
    rw [dbNoise, rsUniform, rsRandInt01]; norm_num [uC4]
  rw [generate_database]
  simp only [list_range_one, List.map_cons, List.map_nil]
  rw [hA, hF, hP, hN]
  have hpos : (0 : ℕ) + 0 * ⌊(1 : ℝ) * ((1 : ℕ) : ℝ)⌋₊ = 0 := by simp
  rw [hpos]
  have hsig : Option.map (fun x => x.2.1)
      (generate_noisy_signal 1 [2] [0] [0] (-2) 1 g 0) = some [-2 * g 0 + 2] := by
    rw [generate_noisy_signal, if_pos ⟨rfl, rfl⟩]
    have hfl : ⌊(1 : ℝ) * ((1 : ℕ) : ℝ)⌋₊ = 1 := by norm_num
    rw [hfl, list_range_one]
    simp [Real.cos_zero]
  rw [hsig]
  simp only [Option.getD_some]
  rw [extract_features_single]

/-- C4 (counterexample): two runs of `generate_database` with the same
arguments and an identically seeded `rs` stream (`uC4` at position 0), but
with the unseeded global numpy generator holding different draws
(`gZero` vs `gOne`), return different feature matrices: the noise added by
`generate_noisy_signal` comes from the global generator, which seeding the
shared `rs` generator does not control. -/
theorem generate_database_rs_seed_insufficient :
    (generate_database 1 1 1 1 uC4 0 gZero 0).1 ≠
      (generate_database 1 1 1 1 uC4 0 gOne 0).1 := by
  rw [db_run_features gZero, db_run_features gOne]
  have h1 : (-2 * gZero 0 + 2 : ℝ) = 2 := by norm_num [gZero]
  have h2 : (-2 * gOne 0 + 2 : ℝ) = 0 := by norm_num [gOne]
  rw [h1, h2]
  have hs2 : Real.sqrt ((2 : ℝ) ^ 2) = 2 :=
    Real.sqrt_sq (by norm_num : (0 : ℝ) ≤ 2)
  have hs0 : Real.sqrt ((0 : ℝ) ^ 2) = 0 := by simp
  rw [hs2, hs0]
  intro hcon
  simp at hcon

/-- C4 (amended): the label vector and the target map returned by
`generate_database` depend only on the seeded `rs` stream: two runs with
identical arguments and identical `rs` stream and position return the same
labels and the same target map, whatever the state of the global numpy
generator.  (The feature matrix additionally depends on the global
generator's draws consumed by the synthesizer's noise term.) -/
theorem generate_database_labels_from_rs_only (fs n : ℕ) (T : ℝ)
    (num_windows : ℕ) (u : ℕ → ℝ) (r : ℕ) (g1 g2 : ℕ → ℝ) (s1 s2 : ℕ) :
    (generate_database fs n T num_windows u r g1 s1).2.1 =
      (generate_database fs n T num_windows u r g2 s2).2.1 ∧
    (generate_database fs n T num_windows u r g1 s1).2.2 =
      (generate_database fs n T num_windows u r g2 s2).2.2 :=
  ⟨rfl, rfl⟩
